import Mathlib

/-!
Verification of the line-mapping and breakpoint-injection service of the
RISC-GoV IDE front-end.

The embedding models the pure core of three Go functions:
  * `debugCode` (theme.go): the loop that builds the instrumented document,
    inserting an "ebreak" line before every breakpointed instruction line;
  * `getRelevantLine` (theme.go): the instruction-index scanner;
  * `HighlightLine` (theme.go): the line-correspondence resolver;
  * `AddRecentFile` (preferences.go): the recent-files preference update.

The external assembler package supplies two lookup tables
(`InstructionToOpType`, `PseudoToInstruction`); the embedding is
parameterised over them, matching the spec's description of the
instruction-table collaborator as an opaque service.

Go string helpers (`strings.TrimSpace`, `strings.Fields`,
`strings.HasPrefix`) are modelled on the character list of a string.
-/

namespace RiscGui

/-- Model of Go `strings.TrimSpace`: drop whitespace from both ends. -/
def goTrimSpace (s : String) : String :=
  String.mk (((s.data.dropWhile (fun c => c.isWhitespace)).reverse.dropWhile
      (fun c => c.isWhitespace)).reverse)

/-- Helper for `goFields`: split a character list around whitespace runs,
`acc` holds the current token reversed. -/
def goFieldsAux : List Char → List Char → List String
  | [], acc => if acc.isEmpty then [] else [String.mk acc.reverse]
  | c :: rest, acc =>
    if c.isWhitespace then
      if acc.isEmpty then goFieldsAux rest []
      else String.mk acc.reverse :: goFieldsAux rest []
    else goFieldsAux rest (c :: acc)

/-- Model of Go `strings.Fields`: the whitespace-separated tokens of `s`. -/
def goFields (s : String) : List String := goFieldsAux s.data []

/-- Model of Go `strings.HasPrefix s pre`. -/
def goHasPre (s pre : String) : Bool := List.isPrefixOf pre.data s.data

section Service

variable (InstructionToOpType : String → Bool)
variable (PseudoToInstruction : String → Option (List String → List String))
variable (breakpoints : Nat → Bool)

/-- The scanner `getRelevantLine` of theme.go, with the loop state made
explicit: current zero-based line index `i`, running `instructionCount`,
and trap counter `nBreaks`.  Mirrors the Go loop body line by line. -/
def getRelevantLineAux (lineNum : Int) :
    List String → Nat → Int → Nat → Int × Nat
  | [], _, _, nBreaks => (-1, nBreaks)
  | line :: rest, i, instructionCount, nBreaks =>
    let trimmedLine := goTrimSpace line
    if trimmedLine == ("") || goHasPre trimmedLine ("#")
        || goHasPre trimmedLine ("//") then
      getRelevantLineAux lineNum rest (i + 1) instructionCount nBreaks
    else
      let parts := goFields trimmedLine
      match parts with
      | [] => getRelevantLineAux lineNum rest (i + 1) instructionCount nBreaks
      | p0 :: _ =>
        if InstructionToOpType p0 || (PseudoToInstruction p0).isSome then
          let c1 := instructionCount + 1
          if c1 = lineNum then (Int.ofNat i, nBreaks)
          else
            let c2 :=
              match PseudoToInstruction p0 with
              | some retFunc => c1 + ((retFunc parts).length : Int) - 1
              | none => c1
            let n2 := if p0 == ("ebreak") then nBreaks + 1 else nBreaks
            getRelevantLineAux lineNum rest (i + 1) c2 n2
        else
          getRelevantLineAux lineNum rest (i + 1) instructionCount nBreaks

/-- `getRelevantLine` of theme.go: scan `lines` for the `lineNum`-th
instruction, returning the zero-based line index (or -1) and the number of
"ebreak" lines passed. -/
def getRelevantLine (lineNum : Int) (lines : List String) : Int × Nat :=
  getRelevantLineAux InstructionToOpType PseudoToInstruction lineNum lines 0 0 0

/-- The pure core of `HighlightLine` of theme.go: run the scanner on the
original and on the instrumented line lists and combine the results; `none`
models the early return that suppresses highlighting when the computed line
is below 1. -/
def HighlightLine (lineNum : Int)
    (realFileSplit debugFileSplit : List String) : Option Int :=
  let real := getRelevantLine InstructionToOpType PseudoToInstruction
      lineNum realFileSplit
  let debug := getRelevantLine InstructionToOpType PseudoToInstruction
      lineNum debugFileSplit
  let currentHighline : Int := real.1 + ((real.2 : Int) - (debug.2 : Int))
  if currentHighline < 1 then none else some currentHighline

/-- The breakpoint-insertion loop of `debugCode` in theme.go, on the line
list with the running `lineIndex` explicit: before every line that is
instruction-bearing and breakpointed, one "ebreak" line is emitted; every
original line is emitted afterwards. -/
def debugCodeAux : List String → Nat → List String
  | [], _ => []
  | line :: rest, lineIndex =>
    let trimmedLine := goTrimSpace line
    let withBreak :=
      if !(trimmedLine == ("")) && !(goHasPre trimmedLine ("#"))
          && !(goHasPre trimmedLine ("//")) then
        match goFields trimmedLine with
        | [] => false
        | p0 :: _ =>
          (InstructionToOpType p0 || (PseudoToInstruction p0).isSome)
            && breakpoints lineIndex
      else false
    (if withBreak then [("ebreak")] else [])
      ++ line :: debugCodeAux rest (lineIndex + 1)

/-- The instrumented document built by `debugCode` of theme.go from the
editor's line list. -/
def debugCode (lines : List String) : List String :=
  debugCodeAux InstructionToOpType PseudoToInstruction breakpoints lines 0

/-- `debugFileSplit` as the Go code computes it: the instrumented content is
built with a trailing newline after every line and then split on newlines,
so the split carries one final empty line. -/
def debugFileSplitOf (lines : List String) : List String :=
  debugCode InstructionToOpType PseudoToInstruction breakpoints lines ++ [("")]

/-- Classification of one line as the scanner and the builder see it:
either skipped, or instruction-bearing with the total instruction weight
the scanner adds for it and whether its mnemonic is "ebreak". -/
inductive LineStep where
  | skip : LineStep
  | instrLine : Int → Bool → LineStep
deriving DecidableEq

/-- The per-line classification shared by the scanner and the builder. -/
def lineStep (line : String) : LineStep :=
  let t := goTrimSpace line
  if t == ("") || goHasPre t ("#") || goHasPre t ("//") then .skip
  else
    let parts := goFields t
    match parts with
    | [] => .skip
    | p0 :: _ =>
      if InstructionToOpType p0 || (PseudoToInstruction p0).isSome then
        .instrLine
          (match PseudoToInstruction p0 with
           | some retFunc => ((retFunc parts).length : Int)
           | none => 1)
          (p0 == ("ebreak"))
      else .skip

/-- The instruction weight one line contributes to the scanner's counter. -/
def lineWeight (line : String) : Int :=
  match lineStep InstructionToOpType PseudoToInstruction line with
  | .skip => 0
  | .instrLine w _ => w

/-- Total instruction count of a line sequence (pseudo-instructions counted
with their expansion length). -/
def scanWeight : List String → Int
  | [] => 0
  | line :: rest =>
    lineWeight InstructionToOpType PseudoToInstruction line
      + scanWeight rest

/-- Number of instruction-bearing lines whose mnemonic is "ebreak". -/
def breaksIn : List String → Nat
  | [] => 0
  | line :: rest =>
    (match lineStep InstructionToOpType PseudoToInstruction line with
     | .instrLine _ true => 1
     | _ => 0) + breaksIn rest

/-- Modelled from the spec: an instruction-bearing line is one whose trimmed
text is non-empty, is not a comment, and whose first whitespace-delimited
token is a known real or pseudo instruction mnemonic. -/
def isInstructionBearing (line : String) : Bool :=
  let t := goTrimSpace line
  !(t == ("")) && !(goHasPre t ("#")) && !(goHasPre t ("//"))
    && (match goFields t with
        | [] => false
        | p0 :: _ =>
          InstructionToOpType p0 || (PseudoToInstruction p0).isSome)

/-- Modelled from the spec: `buildInstrumentedDocument` emits one trap line
("ebreak") immediately before each breakpointed instruction-bearing line and
always emits the original line afterwards, unmodified and in order. -/
def buildInstrumentedDocument : List String → Nat → List String
  | [], _ => []
  | line :: rest, i =>
    (if isInstructionBearing InstructionToOpType PseudoToInstruction line
        && breakpoints i then [("ebreak")] else [])
      ++ line :: buildInstrumentedDocument rest (i + 1)

/-- The count of indices that are both breakpointed and instruction-bearing,
starting at index `i`. -/
def breakpointedInstructionCount : List String → Nat → Nat
  | [], _ => 0
  | line :: rest, i =>
    (if isInstructionBearing InstructionToOpType PseudoToInstruction line
        && breakpoints i then 1 else 0)
      + breakpointedInstructionCount rest (i + 1)

end Service

/-- `AddRecentFile`'s search loop in preferences.go: find the first entry
equal to `filePath` and return the list with that entry removed, or `none`
when absent. -/
def removeFirstOcc : List String → String → Option (List String)
  | [], _ => none
  | path :: rest, filePath =>
    if path == filePath then some rest
    else
      match removeFirstOcc rest filePath with
      | some l => some (path :: l)
      | none => none

/-- `AddRecentFile` of preferences.go on the recent-files list: move an
existing entry to the front, otherwise prepend and truncate to 10. -/
def AddRecentFile (recentFiles : List String) (filePath : String) :
    List String :=
  match removeFirstOcc recentFiles filePath with
  | some l => filePath :: l
  | none =>
    let l := filePath :: recentFiles
    if l.length > 10 then l.take 10 else l

/-- A small concrete instruction table for concrete evaluations. -/
def sampleInstr : String → Bool :=
  fun s => s == ("add") || s == ("ecall") || s == ("ebreak") || s == ("li")

/-- A small concrete pseudo-instruction table: "la" expands to two real
instructions. -/
def samplePseudo : String → Option (List String → List String) :=
  fun s =>
    if s == ("la") then some (fun _ => [("auipc"), ("addi")]) else none

/-- Hypothesis on the assembler's pseudo-instruction table, per the spec's
glossary: a pseudo-instruction lowers to one or more real instructions. -/
def ExpandsNonempty
    (PseudoToInstruction : String → Option (List String → List String)) :
    Prop :=
  ∀ s f, PseudoToInstruction s = some f → ∀ args, 1 ≤ (f args).length

/-- Hypothesis on the assembler's tables: the trap literal "ebreak" is a
real instruction and not a pseudo-instruction. -/
def EbreakReal (InstructionToOpType : String → Bool)
    (PseudoToInstruction : String → Option (List String → List String)) :
    Prop :=
  InstructionToOpType ("ebreak") = true
    ∧ PseudoToInstruction ("ebreak") = none

/-! ### Step lemmas: the scanner and builder as functions of `lineStep` -/

theorem getRelevantLineAux_nil (IT : String → Bool)
    (PT : String → Option (List String → List String)) (k : Int)
    (i : Nat) (c : Int) (b : Nat) :
    getRelevantLineAux IT PT k [] i c b = (-1, b) := rfl

theorem getRelevantLineAux_cons (IT : String → Bool)
    (PT : String → Option (List String → List String)) (k : Int)
    (x : String) (rest : List String) (i : Nat) (c : Int) (b : Nat) :
    getRelevantLineAux IT PT k (x :: rest) i c b =
      (match lineStep IT PT x with
       | .skip => getRelevantLineAux IT PT k rest (i + 1) c b
       | .instrLine w eb =>
         if c + 1 = k then (Int.ofNat i, b)
         else getRelevantLineAux IT PT k rest (i + 1) (c + w)
           (if eb then b + 1 else b)) := by
  simp only [getRelevantLineAux, lineStep]
  by_cases h1 : (goTrimSpace x == ("") || goHasPre (goTrimSpace x) ("#")
      || goHasPre (goTrimSpace x) ("//")) = true
  · simp [h1]
  · simp only [h1, Bool.false_eq_true, if_false]
    cases hp : goFields (goTrimSpace x) with
    | nil => simp
    | cons p0 ps =>
      simp only
      by_cases h2 : (IT p0 || (PT p0).isSome) = true
      · simp only [h2, if_true]
        by_cases h3 : c + 1 = k
        · simp [h3]
        · simp only [h3, if_false]
          cases hPT : PT p0 with
          | none => simp
          | some retFunc =>
            simp only
            have harith : c + 1 + ((retFunc (p0 :: ps)).length : Int) - 1
                = c + ((retFunc (p0 :: ps)).length : Int) := by ring
            rw [harith]
      · simp [h2]

theorem debugCodeAux_cons (IT : String → Bool)
    (PT : String → Option (List String → List String))
    (bp : Nat → Bool) (x : String) (rest : List String) (i : Nat) :
    debugCodeAux IT PT bp (x :: rest) i =
      (if isInstructionBearing IT PT x && bp i then [("ebreak")] else [])
        ++ x :: debugCodeAux IT PT bp rest (i + 1) := by
  simp only [debugCodeAux, isInstructionBearing]
  by_cases h1 : (goTrimSpace x == ("")) = true
  · simp [h1]
  · by_cases h2 : goHasPre (goTrimSpace x) ("#") = true
    · simp [h1, h2]
    · by_cases h3 : goHasPre (goTrimSpace x) ("//") = true
      · simp [h1, h2, h3]
      · simp only [h1, h2, h3, Bool.not_false, Bool.not_true,
          Bool.true_and, Bool.false_and, Bool.and_true, Bool.and_false]
        cases hp : goFields (goTrimSpace x) with
        | nil => simp
        | cons p0 ps => simp [Bool.and_assoc]

/-- `isInstructionBearing` agrees with the scanner's classification. -/
theorem isInstructionBearing_eq_lineStep (IT : String → Bool)
    (PT : String → Option (List String → List String)) (x : String) :
    isInstructionBearing IT PT x =
      (match lineStep IT PT x with
       | .skip => false
       | .instrLine _ _ => true) := by
  simp only [isInstructionBearing, lineStep]
  by_cases h1 : (goTrimSpace x == ("")) = true
  · simp [h1]
  · by_cases h2 : goHasPre (goTrimSpace x) ("#") = true
    · simp [h1, h2]
    · by_cases h3 : goHasPre (goTrimSpace x) ("//") = true
      · simp [h1, h2, h3]
      · simp only [h1, h2, h3, Bool.or_self, Bool.false_or,
          Bool.not_false, Bool.true_and]
        cases hp : goFields (goTrimSpace x) with
        | nil => simp
        | cons p0 ps =>
          simp only
          by_cases h4 : (IT p0 || (PT p0).isSome) = true
          · simp [h4]
          · simp [h4]

/-! ### Facts about `lineStep`, `scanWeight`, `breaksIn` -/

theorem lineWeight_of_lineStep (IT : String → Bool)
    (PT : String → Option (List String → List String)) (x : String)
    (w : Int) (eb : Bool) (h : lineStep IT PT x = .instrLine w eb) :
    lineWeight IT PT x = w := by
  simp [lineWeight, h]

theorem lineWeight_of_skip (IT : String → Bool)
    (PT : String → Option (List String → List String)) (x : String)
    (h : lineStep IT PT x = .skip) : lineWeight IT PT x = 0 := by
  simp [lineWeight, h]

theorem lineStep_weight_nonneg (IT : String → Bool)
    (PT : String → Option (List String → List String)) (x : String)
    (w : Int) (eb : Bool) (h : lineStep IT PT x = .instrLine w eb) :
    0 ≤ w := by
  simp only [lineStep] at h
  split at h
  · cases h
  · split at h
    · cases h
    · split at h
      · injection h with hw heb
        subst hw
        split
        · exact Int.natCast_nonneg _
        · norm_num
      · cases h

/-- Inversion of `lineStep` at an instruction-bearing line. -/
theorem lineStep_instr_inv (IT : String → Bool)
    (PT : String → Option (List String → List String))
    (x : String) (w : Int) (eb : Bool)
    (h : lineStep IT PT x = .instrLine w eb) :
    ∃ p0 ps, goFields (goTrimSpace x) = p0 :: ps ∧
      (IT p0 || (PT p0).isSome) = true ∧
      w = (match PT p0 with
           | some f => ((f (p0 :: ps)).length : Int)
           | none => 1) ∧ eb = (p0 == ("ebreak")) := by
  simp only [lineStep] at h
  split at h
  · cases h
  · split at h
    · cases h
    · rename_i scrut p0 ps hfields
      split at h
      · rename_i htab
        injection h with hw heb
        rw [hfields] at hw
        exact ⟨p0, ps, hfields, htab, hw.symm, heb.symm⟩
      · cases h

theorem lineStep_weight_pos (IT : String → Bool)
    (PT : String → Option (List String → List String))
    (H1 : ExpandsNonempty PT) (x : String)
    (w : Int) (eb : Bool) (h : lineStep IT PT x = .instrLine w eb) :
    1 ≤ w := by
  obtain ⟨p0, ps, hfields, htab, hw, heb⟩ := lineStep_instr_inv IT PT x w eb h
  subst hw
  cases hPT : PT p0 with
  | none => simp
  | some f =>
    simp only [hPT]
    have := H1 _ _ hPT (p0 :: ps)
    omega

theorem lineStep_ebreak_weight (IT : String → Bool)
    (PT : String → Option (List String → List String))
    (Hnp : PT ("ebreak") = none) (x : String) (w : Int)
    (h : lineStep IT PT x = .instrLine w true) : w = 1 := by
  obtain ⟨p0, ps, hfields, htab, hw, heb⟩ := lineStep_instr_inv IT PT x w true h
  have hp0 : p0 = ("ebreak") := by
    have := heb.symm
    simpa using this
  subst hp0
  rw [Hnp] at hw
  exact hw

theorem lineStep_ebreak_val (IT : String → Bool)
    (PT : String → Option (List String → List String))
    (Hb : IT ("ebreak") = true) (Hnp : PT ("ebreak") = none) :
    lineStep IT PT ("ebreak") = .instrLine 1 true := by
  have ht : goTrimSpace ("ebreak") = ("ebreak") := by decide
  have hf : goFields ("ebreak") = [("ebreak")] := by decide
  have hc1 : ((("ebreak" : String)) == ("")) = false := by decide
  have hc2 : goHasPre ("ebreak") ("#") = false := by decide
  have hc3 : goHasPre ("ebreak") ("//") = false := by decide
  simp [lineStep, ht, hf, hc1, hc2, hc3, Hb, Hnp]

theorem lineStep_empty (IT : String → Bool)
    (PT : String → Option (List String → List String)) :
    lineStep IT PT ("") = .skip := by
  have ht : goTrimSpace ("") = ("") := by decide
  simp [lineStep, ht]

theorem scanWeight_nonneg (IT : String → Bool)
    (PT : String → Option (List String → List String))
    (xs : List String) : 0 ≤ scanWeight IT PT xs := by
  induction xs with
  | nil => simp [scanWeight]
  | cons x rest ih =>
    have hx : 0 ≤ lineWeight IT PT x := by
      cases h : lineStep IT PT x with
      | skip => rw [lineWeight_of_skip IT PT x h]
      | instrLine w eb =>
        rw [lineWeight_of_lineStep IT PT x w eb h]
        exact lineStep_weight_nonneg IT PT x w eb h
    simp only [scanWeight]
    omega

theorem breaksIn_le_scanWeight (IT : String → Bool)
    (PT : String → Option (List String → List String))
    (Hnp : PT ("ebreak") = none) (xs : List String) :
    (breaksIn IT PT xs : Int) ≤ scanWeight IT PT xs := by
  induction xs with
  | nil => simp [breaksIn, scanWeight]
  | cons x rest ih =>
    simp only [breaksIn, scanWeight]
    cases h : lineStep IT PT x with
    | skip =>
      rw [lineWeight_of_skip IT PT x h]
      push_cast
      omega
    | instrLine w eb =>
      rw [lineWeight_of_lineStep IT PT x w eb h]
      cases eb with
      | false =>
        have hw : 0 ≤ w := lineStep_weight_nonneg IT PT x w false h
        push_cast
        omega
      | true =>
        have hw : w = 1 := lineStep_ebreak_weight IT PT Hnp x w h
        push_cast
        omega

/-! ### Scan lemmas -/

/-- Once the counter has reached or passed the target, the scanner never
finds it: every later check strictly exceeds it. -/
theorem aux_notFound_of_le (IT : String → Bool)
    (PT : String → Option (List String → List String)) (k : Int)
    (xs : List String) (i : Nat) (c : Int) (b : Nat) (h : k ≤ c) :
    getRelevantLineAux IT PT k xs i c b = (-1, b + breaksIn IT PT xs) := by
  induction xs generalizing i c b with
  | nil => simp [getRelevantLineAux_nil, breaksIn]
  | cons x rest ih =>
    rw [getRelevantLineAux_cons]
    cases hls : lineStep IT PT x with
    | skip =>
      simp only
      rw [ih (i + 1) c b h]
      simp [breaksIn, hls]
    | instrLine w eb =>
      simp only
      have hw : 0 ≤ w := lineStep_weight_nonneg IT PT x w eb hls
      rw [if_neg (by omega : ¬(c + 1 = k))]
      rw [ih (i + 1) (c + w) _ (by omega)]
      simp only [breaksIn, hls, Prod.mk.injEq, true_and]
      cases eb <;> simp <;> omega

/-- If the target exceeds the total instruction count remaining, the
scanner never finds it (pseudo expansions being non-empty). -/
theorem aux_notFound_of_gt (IT : String → Bool)
    (PT : String → Option (List String → List String))
    (H1 : ExpandsNonempty PT) (k : Int)
    (xs : List String) (i : Nat) (c : Int) (b : Nat)
    (h : c + scanWeight IT PT xs < k) :
    getRelevantLineAux IT PT k xs i c b = (-1, b + breaksIn IT PT xs) := by
  induction xs generalizing i c b with
  | nil => simp [getRelevantLineAux_nil, breaksIn]
  | cons x rest ih =>
    rw [getRelevantLineAux_cons]
    cases hls : lineStep IT PT x with
    | skip =>
      simp only
      have hw := lineWeight_of_skip IT PT x hls
      have h' : c + scanWeight IT PT rest < k := by
        simp only [scanWeight, hw] at h
        omega
      rw [ih (i + 1) c b h']
      simp [breaksIn, hls]
    | instrLine w eb =>
      simp only
      have hw : 1 ≤ w := lineStep_weight_pos IT PT H1 x w eb hls
      have hwl := lineWeight_of_lineStep IT PT x w eb hls
      have hrest : 0 ≤ scanWeight IT PT rest := scanWeight_nonneg IT PT rest
      have hcw : c + w + scanWeight IT PT rest < k := by
        simp only [scanWeight, hwl] at h
        omega
      rw [if_neg (by omega : ¬(c + 1 = k))]
      rw [ih (i + 1) (c + w) _ hcw]
      simp only [breaksIn, hls, Prod.mk.injEq, true_and]
      cases eb <;> simp <;> omega

/-- Scanning an appended list when the target is found in the first part. -/
theorem aux_append_found (IT : String → Bool)
    (PT : String → Option (List String → List String)) (k : Int)
    (xs ys : List String) (i : Nat) (c : Int) (b : Nat)
    (h : 0 ≤ (getRelevantLineAux IT PT k xs i c b).1) :
    getRelevantLineAux IT PT k (xs ++ ys) i c b
      = getRelevantLineAux IT PT k xs i c b := by
  induction xs generalizing i c b with
  | nil => simp [getRelevantLineAux_nil] at h
  | cons x rest ih =>
    rw [List.cons_append, getRelevantLineAux_cons]
    rw [getRelevantLineAux_cons] at h ⊢
    cases hls : lineStep IT PT x with
    | skip =>
      simp only [hls] at h ⊢
      exact ih (i + 1) c b h
    | instrLine w eb =>
      simp only [hls] at h ⊢
      by_cases hk : c + 1 = k
      · simp only [if_pos hk] at h ⊢
      · simp only [if_neg hk] at h ⊢
        exact ih (i + 1) (c + w) _ h

/-- Scanning an appended list when the target is not found in the first
part: the scan continues into the second part with the accumulated state. -/
theorem aux_append_notFound (IT : String → Bool)
    (PT : String → Option (List String → List String)) (k : Int)
    (xs ys : List String) (i : Nat) (c : Int) (b : Nat)
    (h : ¬ 0 ≤ (getRelevantLineAux IT PT k xs i c b).1) :
    getRelevantLineAux IT PT k (xs ++ ys) i c b
      = getRelevantLineAux IT PT k ys (i + xs.length)
          (c + scanWeight IT PT xs) (b + breaksIn IT PT xs) := by
  induction xs generalizing i c b with
  | nil => simp [scanWeight, breaksIn]
  | cons x rest ih =>
    rw [List.cons_append, getRelevantLineAux_cons]
    rw [getRelevantLineAux_cons] at h
    cases hls : lineStep IT PT x with
    | skip =>
      simp only [hls] at h ⊢
      rw [ih (i + 1) c b h]
      have hw := lineWeight_of_skip IT PT x hls
      have h1 : i + 1 + rest.length = i + (x :: rest).length := by
        simp [List.length_cons]
        omega
      have h2 : c + scanWeight IT PT rest
          = c + scanWeight IT PT (x :: rest) := by
        simp [scanWeight, hw]
      have h3 : b + breaksIn IT PT rest
          = b + breaksIn IT PT (x :: rest) := by
        simp [breaksIn, hls]
      rw [h1, h2, h3]
    | instrLine w eb =>
      simp only [hls] at h ⊢
      by_cases hk : c + 1 = k
      · rw [if_pos hk] at h
        simp at h
      · rw [if_neg hk] at h ⊢
        rw [ih (i + 1) (c + w) _ h]
        have hwl := lineWeight_of_lineStep IT PT x w eb hls
        have h1 : i + 1 + rest.length = i + (x :: rest).length := by
          simp [List.length_cons]
          omega
        have h2 : c + w + scanWeight IT PT rest
            = c + scanWeight IT PT (x :: rest) := by
          simp only [scanWeight, hwl]
          ring
        have h3 : (if eb then b + 1 else b) + breaksIn IT PT rest
            = b + breaksIn IT PT (x :: rest) := by
          simp only [breaksIn, hls]
          cases eb <;> simp <;> omega
        rw [h1, h2, h3]

/-- When the scanner does not find the target, the returned trap count is
the accumulator plus the total number of trap lines in the list. -/
theorem aux_notFound_snd (IT : String → Bool)
    (PT : String → Option (List String → List String)) (k : Int)
    (xs : List String) (i : Nat) (c : Int) (b : Nat)
    (h : ¬ 0 ≤ (getRelevantLineAux IT PT k xs i c b).1) :
    (getRelevantLineAux IT PT k xs i c b).2 = b + breaksIn IT PT xs := by
  have := aux_append_notFound IT PT k xs [] i c b h
  rw [List.append_nil] at this
  rw [this, getRelevantLineAux_nil]

/-- A found target is at least one more than the initial counter. -/
theorem aux_found_ge_k (IT : String → Bool)
    (PT : String → Option (List String → List String)) (k : Int)
    (xs : List String) (i : Nat) (c : Int) (b : Nat)
    (h : 0 ≤ (getRelevantLineAux IT PT k xs i c b).1) : c + 1 ≤ k := by
  induction xs generalizing i c b with
  | nil => simp [getRelevantLineAux_nil] at h
  | cons x rest ih =>
    rw [getRelevantLineAux_cons] at h
    cases hls : lineStep IT PT x with
    | skip =>
      simp only [hls] at h
      exact ih (i + 1) c b h
    | instrLine w eb =>
      simp only [hls] at h
      by_cases hk : c + 1 = k
      · omega
      · simp only [if_neg hk] at h
        have := ih (i + 1) (c + w) _ h
        have hw : 0 ≤ w := lineStep_weight_nonneg IT PT x w eb hls
        omega

/-- A found line index is at least the starting line index. -/
theorem aux_found_index_ge (IT : String → Bool)
    (PT : String → Option (List String → List String)) (k : Int)
    (xs : List String) (i : Nat) (c : Int) (b : Nat)
    (h : 0 ≤ (getRelevantLineAux IT PT k xs i c b).1) :
    (i : Int) ≤ (getRelevantLineAux IT PT k xs i c b).1 := by
  induction xs generalizing i c b with
  | nil => simp [getRelevantLineAux_nil] at h
  | cons x rest ih =>
    rw [getRelevantLineAux_cons] at h ⊢
    cases hls : lineStep IT PT x with
    | skip =>
      simp only [hls] at h ⊢
      have := ih (i + 1) c b h
      push_cast at this ⊢
      omega
    | instrLine w eb =>
      simp only [hls] at h ⊢
      by_cases hk : c + 1 = k
      · simp [if_pos hk]
      · simp only [if_neg hk] at h ⊢
        have := ih (i + 1) (c + w) _ h
        push_cast at this ⊢
        omega

/-- Over targets that are both found, the returned line index is
monotone in the target. -/
theorem aux_found_mono (IT : String → Bool)
    (PT : String → Option (List String → List String)) (k1 k2 : Int)
    (hk : k1 ≤ k2) (xs : List String) (i : Nat) (c : Int) (b1 b2 : Nat)
    (h1 : 0 ≤ (getRelevantLineAux IT PT k1 xs i c b1).1)
    (h2 : 0 ≤ (getRelevantLineAux IT PT k2 xs i c b2).1) :
    (getRelevantLineAux IT PT k1 xs i c b1).1
      ≤ (getRelevantLineAux IT PT k2 xs i c b2).1 := by
  induction xs generalizing i c b1 b2 with
  | nil => simp [getRelevantLineAux_nil] at h1
  | cons x rest ih =>
    simp only [getRelevantLineAux_cons] at h1 h2 ⊢
    cases hls : lineStep IT PT x with
    | skip =>
      simp only [hls] at h1 h2 ⊢
      exact ih (i + 1) c b1 b2 h1 h2
    | instrLine w eb =>
      simp only [hls] at h1 h2 ⊢
      have hw : 0 ≤ w := lineStep_weight_nonneg IT PT x w eb hls
      by_cases hc1 : c + 1 = k1
      · by_cases hc2 : c + 1 = k2
        · simp [if_pos hc1, if_pos hc2]
        · simp only [if_pos hc1, if_neg hc2] at h2 ⊢
          have := aux_found_index_ge IT PT k2 rest (i + 1) (c + w) _ h2
          simp only [Int.ofNat_eq_coe]
          push_cast at this ⊢
          omega
      · by_cases hc2 : c + 1 = k2
        · simp only [if_neg hc1, if_pos hc2] at h1 ⊢
          have := aux_found_ge_k IT PT k1 rest (i + 1) (c + w) _ h1
          omega
        · simp only [if_neg hc1, if_neg hc2] at h1 h2 ⊢
          exact ih (i + 1) (c + w) _ _ h1 h2

/-- When the target is found, the returned trap count is the number of
trap lines strictly before the returned line. -/
theorem aux_found_snd_take (IT : String → Bool)
    (PT : String → Option (List String → List String)) (k : Int)
    (xs : List String) (i : Nat) (c : Int) (b : Nat)
    (h : 0 ≤ (getRelevantLineAux IT PT k xs i c b).1) :
    ∃ t, (getRelevantLineAux IT PT k xs i c b).1 = Int.ofNat (i + t)
      ∧ (getRelevantLineAux IT PT k xs i c b).2
          = b + breaksIn IT PT (xs.take t) := by
  induction xs generalizing i c b with
  | nil => simp [getRelevantLineAux_nil] at h
  | cons x rest ih =>
    rw [getRelevantLineAux_cons] at h ⊢
    cases hls : lineStep IT PT x with
    | skip =>
      simp only [hls] at h ⊢
      obtain ⟨t, ht1, ht2⟩ := ih (i + 1) c b h
      refine ⟨t + 1, ?_, ?_⟩
      · rw [ht1]
        congr 1
        omega
      · rw [ht2, List.take_succ_cons]
        simp [breaksIn, hls]
    | instrLine w eb =>
      simp only [hls] at h ⊢
      by_cases hk : c + 1 = k
      · refine ⟨0, ?_, ?_⟩
        · simp [if_pos hk]
        · simp [if_pos hk, breaksIn]
      · simp only [if_neg hk] at h ⊢
        obtain ⟨t, ht1, ht2⟩ := ih (i + 1) (c + w) _ h
        refine ⟨t + 1, ?_, ?_⟩
        · rw [ht1]
          congr 1
          omega
        · rw [ht2, List.take_succ_cons]
          simp only [breaksIn, hls]
          cases eb <;> simp <;> omega

theorem breaksIn_append (IT : String → Bool)
    (PT : String → Option (List String → List String))
    (xs ys : List String) :
    breaksIn IT PT (xs ++ ys) = breaksIn IT PT xs + breaksIn IT PT ys := by
  induction xs with
  | nil => simp [breaksIn]
  | cons x rest ih =>
    simp only [List.cons_append, breaksIn, List.append_eq, ih]
    omega

/-- Instrumentation only inserts trap lines, so the instrumented document
has at least as many trap lines as the source. -/
theorem breaksIn_debugCodeAux_ge (IT : String → Bool)
    (PT : String → Option (List String → List String)) (bp : Nat → Bool)
    (src : List String) (i : Nat) :
    breaksIn IT PT src ≤ breaksIn IT PT (debugCodeAux IT PT bp src i) := by
  induction src generalizing i with
  | nil => simp [debugCodeAux]
  | cons x rest ih =>
    rw [debugCodeAux_cons, breaksIn_append]
    simp only [breaksIn]
    have := ih (i + 1)
    omega

/-- Core bound for boundary suppression: whenever the scanner finds a
target inside the instrumented document, the trap count it returns is at
least the source's total trap count, less the distance of the target past
the source's total instruction count, adjusted by two. -/
theorem debug_found_breaks (IT : String → Bool)
    (PT : String → Option (List String → List String)) (bp : Nat → Bool)
    (H1 : ExpandsNonempty PT) (Heb : EbreakReal IT PT) (k : Int)
    (src : List String) :
    ∀ (i j : Nat) (c : Int) (b : Nat),
      0 ≤ (getRelevantLineAux IT PT k (debugCodeAux IT PT bp src i) j c b).1 →
      (b : Int) + (breaksIn IT PT src : Int)
          + (k - c - scanWeight IT PT src) - 2
        ≤ ((getRelevantLineAux IT PT k (debugCodeAux IT PT bp src i) j c b).2
            : Int) := by
  obtain ⟨Hb, Hnp⟩ := Heb
  induction src with
  | nil =>
    intro i j c b h
    simp [debugCodeAux, getRelevantLineAux_nil] at h
  | cons x rest ih =>
    intro i j c b h
    rw [debugCodeAux_cons] at h ⊢
    have hlsE := lineStep_ebreak_val IT PT Hb Hnp
    by_cases hib : (isInstructionBearing IT PT x && bp i) = true
    · have hx : isInstructionBearing IT PT x = true := by
        simp only [Bool.and_eq_true] at hib
        exact hib.1
      cases hls : lineStep IT PT x with
      | skip =>
        rw [isInstructionBearing_eq_lineStep, hls] at hx
        cases hx
      | instrLine w eb =>
        have hw : 1 ≤ w := lineStep_weight_pos IT PT H1 x w eb hls
        have hM : (breaksIn IT PT rest : Int) ≤ scanWeight IT PT rest :=
          breaksIn_le_scanWeight IT PT Hnp rest
        rw [if_pos hib] at h ⊢
        simp only [List.singleton_append, getRelevantLineAux_cons, hlsE,
          hls] at h ⊢
        by_cases hk1 : c + 1 = k
        · simp only [if_pos hk1] at h ⊢
          cases eb <;>
            simp only [breaksIn, scanWeight, lineWeight, hls] <;>
            push_cast <;>
            omega
        · simp only [if_neg hk1, if_pos rfl] at h ⊢
          by_cases hk2 : c + 1 + 1 = k
          · simp only [if_pos hk2] at h ⊢
            cases eb <;>
              simp only [breaksIn, scanWeight, lineWeight, hls] <;>
              push_cast <;>
              omega
          · simp only [if_neg hk2] at h ⊢
            cases eb with
            | false =>
              have hrec := ih (i + 1) (j + 1 + 1) (c + 1 + w) (b + 1)
                (by simpa using h)
              simp only [breaksIn, scanWeight, lineWeight, hls]
              push_cast at hrec ⊢
              omega
            | true =>
              have hrec := ih (i + 1) (j + 1 + 1) (c + 1 + w) (b + 1 + 1)
                (by simpa using h)
              simp only [breaksIn, scanWeight, lineWeight, hls]
              push_cast at hrec ⊢
              omega
    · rw [if_neg hib] at h ⊢
      simp only [List.nil_append, getRelevantLineAux_cons] at h ⊢
      cases hls : lineStep IT PT x with
      | skip =>
        simp only [hls] at h ⊢
        have hrec := ih (i + 1) (j + 1) c b h
        simp only [breaksIn, scanWeight, lineWeight, hls]
        push_cast at hrec ⊢
        omega
      | instrLine w eb =>
        simp only [hls] at h ⊢
        have hw : 1 ≤ w := lineStep_weight_pos IT PT H1 x w eb hls
        have hM : (breaksIn IT PT rest : Int) ≤ scanWeight IT PT rest :=
          breaksIn_le_scanWeight IT PT Hnp rest
        by_cases hk1 : c + 1 = k
        · simp only [if_pos hk1] at h ⊢
          cases eb <;>
            simp only [breaksIn, scanWeight, lineWeight, hls] <;>
            push_cast <;>
            omega
        · simp only [if_neg hk1] at h ⊢
          cases eb with
          | false =>
            have hrec := ih (i + 1) (j + 1) (c + w) b (by simpa using h)
            simp only [breaksIn, scanWeight, lineWeight, hls]
            push_cast at hrec ⊢
            omega
          | true =>
            have hrec := ih (i + 1) (j + 1) (c + w) (b + 1)
              (by simpa using h)
            simp only [breaksIn, scanWeight, lineWeight, hls]
            push_cast at hrec ⊢
            omega

/-! ### Helper facts about the sample tables -/

theorem samplePseudo_expands : ExpandsNonempty samplePseudo := by
  intro s f h args
  unfold samplePseudo at h
  split at h
  · injection h with hf
    rw [← hf]
    simp
  · cases h

theorem sampleEbreakReal : EbreakReal sampleInstr samplePseudo := by
  constructor
  · decide
  · have hne : ((("ebreak" : String)) == ("la")) = false := by decide
    simp [samplePseudo, hne]

/-! ### Structure of the instrumented document -/

theorem debugCodeAux_eq_build (IT : String → Bool)
    (PT : String → Option (List String → List String)) (bp : Nat → Bool)
    (src : List String) : ∀ i : Nat,
    debugCodeAux IT PT bp src i = buildInstrumentedDocument IT PT bp src i := by
  induction src with
  | nil => intro i; rfl
  | cons x rest ih =>
    intro i
    rw [debugCodeAux_cons]
    simp only [buildInstrumentedDocument]
    rw [ih (i + 1)]

theorem sublist_debugCodeAux (IT : String → Bool)
    (PT : String → Option (List String → List String)) (bp : Nat → Bool)
    (src : List String) : ∀ i : Nat,
    List.Sublist src (debugCodeAux IT PT bp src i) := by
  induction src with
  | nil => intro i; simp [debugCodeAux]
  | cons x rest ih =>
    intro i
    rw [debugCodeAux_cons]
    by_cases hc : (isInstructionBearing IT PT x && bp i) = true
    · rw [if_pos hc]
      exact List.Sublist.cons ("ebreak") (List.Sublist.cons₂ x (ih (i + 1)))
    · rw [if_neg hc]
      exact List.Sublist.cons₂ x (ih (i + 1))

theorem length_debugCodeAux (IT : String → Bool)
    (PT : String → Option (List String → List String)) (bp : Nat → Bool)
    (src : List String) : ∀ i : Nat,
    (debugCodeAux IT PT bp src i).length
      = src.length + breakpointedInstructionCount IT PT bp src i := by
  induction src with
  | nil => intro i; rfl
  | cons x rest ih =>
    intro i
    rw [debugCodeAux_cons]
    simp only [breakpointedInstructionCount, List.length_append,
      List.length_cons, ih (i + 1)]
    by_cases hc : (isInstructionBearing IT PT x && bp i) = true
    · simp only [if_pos hc, List.length_cons, List.length_nil, List.length]
      omega
    · simp only [if_neg hc, List.length_nil]
      omega

/-! ### The claims -/

/-- Claim C1: For every instruction index, source line list and
instrumented line list, whenever `HighlightLine` highlights a line, that
line is `srcLine + (srcTraps - instrTraps)` where `(srcLine, srcTraps)` is
the scanner's result on the source lines and `(instrLine, instrTraps)` the
scanner's result on the instrumented lines. -/
theorem c1_resolver_formula (IT : String → Bool)
    (PT : String → Option (List String → List String)) (k : Int)
    (src instr : List String) (v : Int)
    (h : HighlightLine IT PT k src instr = some v) :
    v = (getRelevantLine IT PT k src).1
      + (((getRelevantLine IT PT k src).2 : Int)
          - ((getRelevantLine IT PT k instr).2 : Int)) := by
  simp only [HighlightLine] at h
  split at h
  · cases h
  · exact (Option.some.inj h).symm

theorem c1_resolver_formula_witness :
    HighlightLine sampleInstr samplePseudo 1 [("# c"), ("add x")]
        [("# c"), ("add x")] = some 1
    ∧ (1 : Int) = (getRelevantLine sampleInstr samplePseudo 1
          [("# c"), ("add x")]).1
        + (((getRelevantLine sampleInstr samplePseudo 1
              [("# c"), ("add x")]).2 : Int)
            - ((getRelevantLine sampleInstr samplePseudo 1
                [("# c"), ("add x")]).2 : Int)) :=
  ⟨by decide,
    c1_resolver_formula sampleInstr samplePseudo 1 [("# c"), ("add x")]
      [("# c"), ("add x")] 1 (by decide)⟩

/-- Claim C2 is false on the code: for a pseudo-instruction at line index 0
expanding to two real instructions, target 1 resolves to line 0 but target
2 — which falls strictly inside the expansion — yields -1, not line 0. -/
theorem c2_counterexample :
    getRelevantLine sampleInstr samplePseudo 1 [("la a1, message")] = (0, 0)
    ∧ (getRelevantLine sampleInstr samplePseudo 2
        [("la a1, message")]).1 = -1 := by
  decide

/-- Claim C2 (amended): the scanner finds a target only when the running
counter exactly equals it at the once-per-line check, made after counting
one instruction for the line and before adding the pseudo-expansion
remainder; when the target falls strictly inside a pseudo-instruction's
expansion, the check skips it and the scanner returns -1 (not found). -/
theorem c2_amended (IT : String → Bool)
    (PT : String → Option (List String → List String))
    (H1 : ExpandsNonempty PT) (pre post : List String) (x : String)
    (k w : Int) (eb : Bool)
    (hx : lineStep IT PT x = .instrLine w eb)
    (hlo : scanWeight IT PT pre + 1 < k)
    (hhi : k ≤ scanWeight IT PT pre + w) :
    (getRelevantLine IT PT k (pre ++ x :: post)).1 = -1 := by
  unfold getRelevantLine
  have hpre : ¬ 0 ≤ (getRelevantLineAux IT PT k pre 0 0 0).1 := by
    rw [aux_notFound_of_gt IT PT H1 k pre 0 0 0 (by omega)]
    norm_num
  rw [aux_append_notFound IT PT k pre _ 0 0 0 hpre]
  rw [getRelevantLineAux_cons]
  simp only [hx]
  rw [if_neg (by omega : ¬(0 + scanWeight IT PT pre + 1 = k))]
  rw [aux_notFound_of_le IT PT k post _ _ _ (by omega)]

theorem c2_amended_witness :
    lineStep sampleInstr samplePseudo ("la a1, message")
        = .instrLine 2 false
    ∧ (getRelevantLine sampleInstr samplePseudo 2
        ([] ++ ("la a1, message") :: [("add x")])).1 = -1 :=
  ⟨by decide,
    c2_amended sampleInstr samplePseudo samplePseudo_expands [] [("add x")]
      ("la a1, message") 2 2 false (by decide) (by decide) (by decide)⟩

/-- Claim C3: the builder emits exactly one "ebreak" line immediately
before each breakpointed instruction-bearing line and always emits every
original line afterward, unmodified and in order; in particular the
original lines form a subsequence of the output. -/
theorem c3_builder_shape (IT : String → Bool)
    (PT : String → Option (List String → List String)) (bp : Nat → Bool)
    (src : List String) :
    debugCode IT PT bp src = buildInstrumentedDocument IT PT bp src 0
    ∧ List.Sublist src (debugCode IT PT bp src) :=
  ⟨debugCodeAux_eq_build IT PT bp src 0, sublist_debugCodeAux IT PT bp src 0⟩

/-- Claim C4: the instrumented document's length is the source length plus
the number of breakpointed instruction-bearing lines. -/
theorem c4_length (IT : String → Bool)
    (PT : String → Option (List String → List String)) (bp : Nat → Bool)
    (src : List String) :
    (debugCode IT PT bp src).length
      = src.length + breakpointedInstructionCount IT PT bp src 0 :=
  length_debugCodeAux IT PT bp src 0

/-- Claim C5: for every source document and breakpoint set, resolving an
instruction index of 0 or one greater than the source's total instruction
count against the instrumented document yields no highlighted line: the
computed line is below 1 and highlighting is suppressed. -/
theorem c5_boundary (IT : String → Bool)
    (PT : String → Option (List String → List String)) (bp : Nat → Bool)
    (H1 : ExpandsNonempty PT) (Heb : EbreakReal IT PT)
    (src : List String) (k : Int)
    (hk : k = 0 ∨ scanWeight IT PT src < k) :
    HighlightLine IT PT k src (debugFileSplitOf IT PT bp src) = none := by
  have hreal : getRelevantLineAux IT PT k src 0 0 0
      = (-1, 0 + breaksIn IT PT src) := by
    rcases hk with hk0 | hkgt
    · exact aux_notFound_of_le IT PT k src 0 0 0 (by omega)
    · exact aux_notFound_of_gt IT PT H1 k src 0 0 0 (by omega)
  by_cases hf : 0 ≤ (getRelevantLineAux IT PT k
      (debugCode IT PT bp src) 0 0 0).1
  · have hdg : getRelevantLineAux IT PT k
        (debugFileSplitOf IT PT bp src) 0 0 0
        = getRelevantLineAux IT PT k (debugCode IT PT bp src) 0 0 0 :=
      aux_append_found IT PT k _ [("")] 0 0 0 hf
    rcases hk with hk0 | hkgt
    · exfalso
      have := aux_found_ge_k IT PT k _ 0 0 0 hf
      omega
    · have hlow := debug_found_breaks IT PT bp H1 Heb k src 0 0 0 0 hf
      rw [show debugCodeAux IT PT bp src 0 = debugCode IT PT bp src
        from rfl] at hlow
      simp only [HighlightLine, getRelevantLine]
      rw [hreal, hdg]
      rw [if_pos (by push_cast at hlow ⊢; omega)]
  · have hdg : getRelevantLineAux IT PT k
        (debugFileSplitOf IT PT bp src) 0 0 0
        = (-1, 0 + breaksIn IT PT (debugCode IT PT bp src)) := by
      unfold debugFileSplitOf
      rw [aux_append_notFound IT PT k _ [("")] 0 0 0 hf]
      rw [getRelevantLineAux_cons, lineStep_empty]
      simp only [getRelevantLineAux_nil, breaksIn]
    have hge : breaksIn IT PT src
        ≤ breaksIn IT PT (debugCode IT PT bp src) :=
      breaksIn_debugCodeAux_ge IT PT bp src 0
    simp only [HighlightLine, getRelevantLine]
    rw [hreal, hdg]
    rw [if_pos (by push_cast; omega)]

theorem c5_boundary_witness :
    HighlightLine sampleInstr samplePseudo 0 [("ebreak"), ("add x")]
        (debugFileSplitOf sampleInstr samplePseudo (fun i => i == 0)
          [("ebreak"), ("add x")]) = none
    ∧ HighlightLine sampleInstr samplePseudo 3 [("ebreak"), ("add x")]
        (debugFileSplitOf sampleInstr samplePseudo (fun i => i == 0)
          [("ebreak"), ("add x")]) = none :=
  ⟨c5_boundary sampleInstr samplePseudo (fun i => i == 0)
      samplePseudo_expands sampleEbreakReal [("ebreak"), ("add x")] 0
      (Or.inl rfl),
    c5_boundary sampleInstr samplePseudo (fun i => i == 0)
      samplePseudo_expands sampleEbreakReal [("ebreak"), ("add x")] 3
      (Or.inr (by decide))⟩

/-- Claim C6: for every line sequence and target strictly greater than its
total instruction count, the scanner returns -1 as its not-found result
(with the full trap count); being a total function it raises no error. -/
theorem c6_out_of_range (IT : String → Bool)
    (PT : String → Option (List String → List String))
    (H1 : ExpandsNonempty PT) (k : Int) (lines : List String)
    (h : scanWeight IT PT lines < k) :
    getRelevantLine IT PT k lines = (-1, breaksIn IT PT lines) := by
  unfold getRelevantLine
  have := aux_notFound_of_gt IT PT H1 k lines 0 0 0 (by omega)
  simpa using this

theorem c6_out_of_range_witness :
    scanWeight sampleInstr samplePseudo
        [("la a1, message"), ("add x")] < 5
    ∧ getRelevantLine sampleInstr samplePseudo 5
        [("la a1, message"), ("add x")]
      = (-1, breaksIn sampleInstr samplePseudo
          [("la a1, message"), ("add x")]) :=
  ⟨by decide,
    c6_out_of_range sampleInstr samplePseudo samplePseudo_expands 5
      [("la a1, message"), ("add x")] (by decide)⟩

/-- Claim C7 is false on the code: on the single line "ebreak" with target
1 the scanner returns line 0 with trap count 0, but the number of trap
lines at or before line 0 (including the returned line) is 1. -/
theorem c7_counterexample :
    getRelevantLine sampleInstr samplePseudo 1 [("ebreak")] = (0, 0)
    ∧ breaksIn sampleInstr samplePseudo
        (List.take (0 + 1) [("ebreak")]) = 1 := by
  decide

/-- Claim C7 (amended): when the target is found, the returned trap count
equals the number of trap-instruction lines encountered strictly before
the returned line index — the returned line itself is excluded, because
the scanner returns before incrementing the trap counter for it. -/
theorem c7_amended (IT : String → Bool)
    (PT : String → Option (List String → List String)) (k : Int)
    (lines : List String)
    (h : 0 ≤ (getRelevantLine IT PT k lines).1) :
    (getRelevantLine IT PT k lines).2
      = breaksIn IT PT
          (lines.take (getRelevantLine IT PT k lines).1.toNat) := by
  unfold getRelevantLine at h ⊢
  obtain ⟨t, ht1, ht2⟩ := aux_found_snd_take IT PT k lines 0 0 0 h
  rw [ht2, ht1]
  simp

theorem c7_amended_witness :
    0 ≤ (getRelevantLine sampleInstr samplePseudo 2
        [("# c"), ("ebreak"), ("add x")]).1
    ∧ (getRelevantLine sampleInstr samplePseudo 2
        [("# c"), ("ebreak"), ("add x")]).2
      = breaksIn sampleInstr samplePseudo
          ((([("# c"), ("ebreak"), ("add x")] : List String)).take
            (getRelevantLine sampleInstr samplePseudo 2
              [("# c"), ("ebreak"), ("add x")]).1.toNat) :=
  ⟨by decide,
    c7_amended sampleInstr samplePseudo 2 [("# c"), ("ebreak"), ("add x")]
      (by decide)⟩

/-- Claim C8 is false on the code: on the single instruction line "add x",
raising the target from 1 to 2 makes the returned line index drop from 0
to the not-found result -1, so the index is not non-decreasing in the
target over all positive integers. -/
theorem c8_counterexample :
    (getRelevantLine sampleInstr samplePseudo 1 [("add x")]).1 = 0
    ∧ (getRelevantLine sampleInstr samplePseudo 2 [("add x")]).1 = -1
    ∧ ¬ ((getRelevantLine sampleInstr samplePseudo 1 [("add x")]).1
        ≤ (getRelevantLine sampleInstr samplePseudo 2 [("add x")]).1) := by
  decide

/-- Claim C8 (amended): for a fixed line sequence the returned line index
is non-decreasing in the target over the targets the scanner finds; the
not-found result -1 (below every valid index) breaks monotonicity only at
targets that are not found. -/
theorem c8_amended (IT : String → Bool)
    (PT : String → Option (List String → List String)) (k1 k2 : Int)
    (lines : List String) (hk : k1 ≤ k2)
    (h1 : 0 ≤ (getRelevantLine IT PT k1 lines).1)
    (h2 : 0 ≤ (getRelevantLine IT PT k2 lines).1) :
    (getRelevantLine IT PT k1 lines).1
      ≤ (getRelevantLine IT PT k2 lines).1 :=
  aux_found_mono IT PT k1 k2 hk lines 0 0 0 0 h1 h2

theorem c8_amended_witness :
    (1 : Int) ≤ 2
    ∧ 0 ≤ (getRelevantLine sampleInstr samplePseudo 1
        [("add x"), ("ecall")]).1
    ∧ 0 ≤ (getRelevantLine sampleInstr samplePseudo 2
        [("add x"), ("ecall")]).1
    ∧ (getRelevantLine sampleInstr samplePseudo 1
        [("add x"), ("ecall")]).1
      ≤ (getRelevantLine sampleInstr samplePseudo 2
          [("add x"), ("ecall")]).1 :=
  ⟨by decide, by decide, by decide,
    c8_amended sampleInstr samplePseudo 1 2 [("add x"), ("ecall")]
      (by decide) (by decide) (by decide)⟩

theorem debugCodeAux_no_breakpoints (IT : String → Bool)
    (PT : String → Option (List String → List String))
    (src : List String) : ∀ i : Nat,
    debugCodeAux IT PT (fun _ => false) src i = src := by
  induction src with
  | nil => intro i; rfl
  | cons x rest ih =>
    intro i
    rw [debugCodeAux_cons]
    simp [ih (i + 1)]

/-- Claim C9: with no breakpoints the builder is the identity on the
source line list; in particular an empty input yields an empty output. -/
theorem c9_identity (IT : String → Bool)
    (PT : String → Option (List String → List String)) :
    (∀ src : List String, debugCode IT PT (fun _ => false) src = src)
    ∧ (∀ bp : Nat → Bool, debugCode IT PT bp [] = []) := by
  constructor
  · intro src
    exact debugCodeAux_no_breakpoints IT PT src 0
  · intro bp
    rfl

/-- `AddRecentFile`'s search-and-remove loop removes exactly the first
occurrence, when there is one. -/
theorem removeFirstOcc_eq (l : List String) (p : String) :
    removeFirstOcc l p = if p ∈ l then some (l.erase p) else none := by
  induction l with
  | nil => simp [removeFirstOcc]
  | cons x rest ih =>
    simp only [removeFirstOcc]
    by_cases hx : (x == p) = true
    · have hxe : x = p := by simpa using hx
      subst hxe
      simp [List.erase_cons_head]
    · have hxp : ¬ x = p := by simpa using hx
      rw [if_neg hx, ih]
      by_cases hm : p ∈ rest
      · rw [if_pos hm, if_pos (by simp [hxp, hm])]
        rw [List.erase_cons_tail]
        simpa using hx
      · rw [if_neg hm, if_neg (by
          simp only [List.mem_cons, not_or]
          exact ⟨fun h => hxp h.symm, hm⟩)]

/-- Claim C10 is false on the code: starting from the length-2 list
["a", "a"], adding "a" leaves "a" occurring twice, because the update
removes only the first existing occurrence before prepending. -/
theorem c10_counterexample :
    (([("a"), ("a")] : List String)).length ≤ 10
    ∧ (AddRecentFile [("a"), ("a")] ("a")).count ("a") = 2 := by
  decide

/-- Claim C10 (amended): for a starting list of length at most 10 in which
the path occurs at most once, after `AddRecentFile` the list has length at
most 10, its first element is the path, the path occurs exactly once, and
if the path was present it is moved to the front with the remaining
entries keeping their relative order. -/
theorem c10_amended (start : List String) (p : String)
    (hlen : start.length ≤ 10) (hdup : start.count p ≤ 1) :
    (AddRecentFile start p).length ≤ 10
    ∧ (AddRecentFile start p).head? = some p
    ∧ (AddRecentFile start p).count p = 1
    ∧ (p ∈ start → AddRecentFile start p = p :: start.erase p) := by
  unfold AddRecentFile
  rw [removeFirstOcc_eq]
  by_cases hm : p ∈ start
  · rw [if_pos hm]
    have hlenE : (start.erase p).length = start.length - 1 := by
      rw [List.length_erase_of_mem hm]
    have hpos : 0 < start.length := List.length_pos_of_mem hm
    have hcnt : (start.erase p).count p = start.count p - 1 :=
      List.count_erase_self p start
    have hcp : 0 < start.count p := List.count_pos_iff.mpr hm
    refine ⟨?_, rfl, ?_, fun _ => rfl⟩
    · simp only [List.length_cons, hlenE]
      omega
    · simp only [List.count_cons_self, hcnt]
      omega
  · rw [if_neg hm]
    have hcnt0 : start.count p = 0 := by
      rw [List.count_eq_zero]
      exact hm
    by_cases hbig : (p :: start).length > 10
    · simp only [if_pos hbig]
      have h10 : (10 : Nat) = 9 + 1 := by norm_num
      refine ⟨?_, ?_, ?_, fun hmem => absurd hmem hm⟩
      · simp [List.length_take]
      · rw [h10, List.take_succ_cons]
        rfl
      · rw [h10, List.take_succ_cons]
        simp only [List.count_cons_self]
        have hsub : (start.take 9).count p ≤ start.count p :=
          (List.take_sublist 9 start).count_le p
        omega
    · simp only [if_neg hbig]
      simp only [List.length_cons] at hbig
      refine ⟨by simp only [List.length_cons]; omega, rfl, ?_,
        fun hmem => absurd hmem hm⟩
      simp only [List.count_cons_self]
      omega

theorem c10_amended_witness :
    (([("b"), ("a")] : List String)).length ≤ 10
    ∧ (([("b"), ("a")] : List String)).count ("a") ≤ 1
    ∧ (AddRecentFile [("b"), ("a")] ("a")).length ≤ 10
    ∧ (AddRecentFile [("b"), ("a")] ("a")).head? = some ("a")
    ∧ (AddRecentFile [("b"), ("a")] ("a")).count ("a") = 1
    ∧ (("a" : String) ∈ ([("b"), ("a")] : List String) →
        AddRecentFile [("b"), ("a")] ("a")
          = ("a") :: (([("b"), ("a")] : List String)).erase ("a")) := by
  have h := c10_amended [("b"), ("a")] ("a") (by decide) (by decide)
  exact ⟨by decide, by decide, h.1, h.2.1, h.2.2.1, h.2.2.2⟩

end RiscGui
